import Mathlib

/-!
Verification development for the news-scraping pipeline in
`src/actions/scrape-actions.ts` (a configurable multi-source content-extraction
pipeline).  The TypeScript source is shallowly embedded: strings are lists of
characters (`Str`), the regex-based text normalizer `cleanContent` is embedded
as a sequence of left-to-right, non-overlapping scan-and-replace passes (the
semantics of JavaScript `String.replace` with a global regex), and the
harvester / batch orchestrator control flow is embedded as pure functions over
explicit inputs standing for fetch outcomes.
-/

/-! ## Basic string machinery -/

abbrev Str := List Char

/-- Left-to-right, non-overlapping scan-and-replace, fuelled for structural
recursion.  `m c cs` decides whether a match starts at the head of `c :: cs`;
when it returns `some k`, the match consists of `c` together with the first
`k` characters of `cs`, and is replaced by `repl`.  This is the semantics of
JavaScript `String.prototype.replace` with a global regex: scanning resumes
after the matched portion, and replacement text is never rescanned. -/
def scanStep (m : Char → Str → Option Nat) (repl : Str) : Nat → Str → Str
  | _, [] => []
  | 0, l => l
  | fuel + 1, c :: cs =>
    match m c cs with
    | some k => repl ++ scanStep m repl fuel (cs.drop k)
    | none => c :: scanStep m repl fuel cs

def scanReplace (m : Char → Str → Option Nat) (repl : Str) (l : Str) : Str :=
  scanStep m repl l.length l

/-- Case-insensitive prefix test; the needle is given in lower case.
JavaScript's `i` regex flag case-folds letters only, which `Char.toLower`
models for the ASCII needles used here. -/
def ciStarts : Str → Str → Bool
  | [], _ => true
  | _ :: _, [] => false
  | n :: ns, h :: hs => if h.toLower = n then ciStarts ns hs else false

/-- Index of the first case-insensitive occurrence of `needle`. -/
def findCi (needle : Str) : Str → Option Nat
  | [] => if ciStarts needle [] then some 0 else none
  | c :: cs =>
    if ciStarts needle (c :: cs) then some 0
    else (findCi needle cs).map (· + 1)

/-- Index of the first (case-sensitive) occurrence of `needle`; used for the
needle `-->`, which contains no letters, so case-insensitivity is vacuous. -/
def findSub (needle : Str) : Str → Option Nat
  | [] => if needle.isPrefixOf ([] : Str) then some 0 else none
  | c :: cs =>
    if needle.isPrefixOf (c :: cs) then some 0
    else (findSub needle cs).map (· + 1)

/-- Case-sensitive substring test (for stating properties about the output). -/
def isSubstr (needle : Str) (l : Str) : Bool :=
  l.tails.any (fun t => needle.isPrefixOf t)

/-- The character class of JavaScript regex `\s` (and of `String.trim`):
space, tab, LF, VT, FF, CR, NBSP, and the Unicode space separators. -/
def jsWs (c : Char) : Bool :=
  c = ' ' || c = '\t' || c = '\n' || c = '\r' || c.val = 11 || c.val = 12 ||
  c.val = 0xa0 || c.val = 0x1680 || (0x2000 ≤ c.val && c.val ≤ 0x200a) ||
  c.val = 0x2028 || c.val = 0x2029 || c.val = 0x202f || c.val = 0x205f ||
  c.val = 0x3000 || c.val = 0xfeff

/-- JavaScript `String.prototype.trim`: strip `\s` characters at both ends. -/
def trimL (l : Str) : Str :=
  ((l.dropWhile jsWs).reverse.dropWhile jsWs).reverse

/-! ### The eight replacement passes of `cleanContent`
(`src/actions/scrape-actions.ts`, lines 98-110). -/

/-- `/<script[^>]*>([\S\s]*?)<\/script>/gmi → ''`:
`<script`, then everything up to the first `>`, then the lazy body up to the
first case-insensitive `</script>`. -/
def mScript (c : Char) (cs : Str) : Option Nat :=
  if c = '<' && ciStarts ("script".toList) cs then
    let rest := cs.drop 6
    let a := rest.takeWhile (fun d => d ≠ '>')
    match rest.drop a.length with
    | '>' :: body =>
      (findCi ("</script>".toList) body).map (fun i => 6 + a.length + 1 + i + 9)
    | _ => none
  else none

/-- `/<style[^>]*>([\S\s]*?)<\/style>/gmi → ''`. -/
def mStyle (c : Char) (cs : Str) : Option Nat :=
  if c = '<' && ciStarts ("style".toList) cs then
    let rest := cs.drop 5
    let a := rest.takeWhile (fun d => d ≠ '>')
    match rest.drop a.length with
    | '>' :: body =>
      (findCi ("</style>".toList) body).map (fun i => 5 + a.length + 1 + i + 8)
    | _ => none
  else none

/-- `/<!--.*?-->/gs → ''`: `<!--`, lazy body, first `-->`. -/
def mComment (c : Char) (cs : Str) : Option Nat :=
  if c = '<' && ("!--".toList).isPrefixOf cs then
    (findSub ("-->".toList) (cs.drop 3)).map (fun i => 3 + i + 3)
  else none

/-- `/<[^>]*>/g → ' '`: `<`, non-`>` characters, first `>`. -/
def mTag (c : Char) (cs : Str) : Option Nat :=
  if c = '<' then
    let a := cs.takeWhile (fun d => d ≠ '>')
    match cs.drop a.length with
    | '>' :: _ => some (a.length + 1)
    | _ => none
  else none

/-- Newline-class characters of `/[\n\t\r]+/`. -/
def nlCh (c : Char) : Bool := c = '\n' || c = '\t' || c = '\r'

/-- `/[\n\t\r]+/g → ' '`: a maximal run of newline/tab/CR characters. -/
def mNl (c : Char) (cs : Str) : Option Nat :=
  if nlCh c then some (cs.takeWhile nlCh).length else none

/-- `/\s\s+/g → ' '`: a maximal run of at least two `\s` characters. -/
def mWs (c : Char) (cs : Str) : Option Nat :=
  if jsWs c then
    let r := (cs.takeWhile jsWs).length
    if r = 0 then none else some r
  else none

/-- `/Advertisement/gi → ''`. -/
def mAdv (c : Char) (cs : Str) : Option Nat :=
  if ciStarts ("advertisement".toList) (c :: cs) then some 12 else none

/-- `/Share this story/gi → ''`. -/
def mShare (c : Char) (cs : Str) : Option Nat :=
  if ciStarts ("share this story".toList) (c :: cs) then some 15 else none

/-- The whitespace-collapsing stage of `cleanContent`: the first six passes
(script, style, comment, tag, newline, whitespace-run), before boilerplate
phrase removal and trimming. -/
def stage6 (l : Str) : Str :=
  scanReplace mWs [' ']
    (scanReplace mNl [' ']
      (scanReplace mTag [' ']
        (scanReplace mComment []
          (scanReplace mStyle []
            (scanReplace mScript [] l)))))

/-- `cleanContent` (`src/actions/scrape-actions.ts` lines 98-110) on character
lists: the six structural passes, then removal of the boilerplate phrases
`Advertisement` and `Share this story` (case-insensitive), then trim. -/
def cleanContentL (l : Str) : Str :=
  trimL (scanReplace mShare [] (scanReplace mAdv [] (stage6 l)))

/-- `cleanContent` on Lean strings.  The TypeScript source takes
`string | undefined` and maps both `undefined` and `''` (falsy) to `''`;
the pipeline itself already sends `''` to `''`. -/
def cleanContent (s : String) : String :=
  String.mk (cleanContentL s.data)

/-! ## Output-shape predicates for the normalizer -/

/-- No `>` character occurs in the list. -/
def noGtB (l : Str) : Bool := l.all (fun c => c ≠ '>')

/-- No `<` character is followed (anywhere later) by a `>` character: the
string contains no complete HTML tag, script block, style block or comment. -/
def noLtGtB : Str → Bool
  | [] => true
  | c :: cs => ((if c = '<' then noGtB cs else true) && noLtGtB cs)

/-- No two adjacent `\s` characters (no run of 2+ whitespace). -/
def noWsRun : Str → Bool
  | [] => true
  | [_] => true
  | a :: b :: t => (!(jsWs a && jsWs b)) && noWsRun (b :: t)

/-! ## Candidate Scorer and Field Extractor
(`scoreElement`, lines 120-159; `selectBest`, lines 466-542). -/

/-- `String.prototype.toLowerCase` (ASCII letters; the selector strings and
tag names involved are ASCII). -/
def lowerStr (l : Str) : Str := l.map Char.toLower

/-- `a.includes(b)` after lowercasing, as in `selector.toLowerCase().includes(..)`. -/
def hasHint (needle : Str) (selLC : Str) : Bool := isSubstr needle selLC

/-- An abstract markup node, carrying exactly the observations the scraper
makes of a cheerio element: node kind, tag name, text, the attributes read by
`selectBest`, computed visibility, whether some ancestor matches the
navigation/footer/aside/sidebar/comment denylist of line 145, and inner HTML. -/
structure Elem where
  isTag : Bool
  tagName : Str
  text : Str
  href : Option Str
  src : Option Str
  dataSrc : Option Str
  srcset : Option Str
  datetime : Option Str
  displayNone : Bool
  visibilityHidden : Bool
  inDenySection : Bool
  innerHtml : Option Str
deriving DecidableEq

/-- `scoreElement` (lines 120-159): cleaned-text length, tag bonuses,
selector-hint bonuses, ancestry penalty, hyperlink penalty, floored at zero.
Non-tag nodes score zero.  (The `try/catch` around the body returns 0 on an
internal exception; the embedding is total so that path has no counterpart.) -/
def scoreElement (el : Elem) (selector : Str) : Int :=
  if el.isTag = false then 0
  else
    let textLength : Int := ((cleanContentL el.text).length : Int)
    let tag := lowerStr el.tagName
    let selLC := lowerStr selector
    let s2 :=
      if tag = ("h1".toList) ∨ tag = ("h2".toList) ∨ tag = ("h3".toList) then
        textLength + 30
      else if tag = ("h4".toList) ∨ tag = ("h5".toList) ∨ tag = ("h6".toList) then
        textLength + 15
      else if tag = ("p".toList) then textLength + 5
      else textLength
    let s3 :=
      if hasHint ("title".toList) selLC || hasHint ("headline".toList) selLC then
        s2 + 20
      else s2
    let s4 :=
      if hasHint ("content".toList) selLC || hasHint ("body".toList) selLC ||
          hasHint ("article".toList) selLC then s3 + 10
      else s3
    let s5 := if el.inDenySection then s4 - 50 else s4
    let s6 :=
      if tag = ("a".toList) && !hasHint ("link".toList) selLC &&
          !hasHint ("title".toList) selLC then s5 - 10
      else s5
    max 0 s6

/-- The field a `selectBest` call extracts (the `field` parameter of
`selectBest`, line 469). -/
inductive FieldKind | link | imageUrl | publishedDate | title | summary | fullContent
deriving DecidableEq

/-- The score formula exactly as the claim states it, with the hyperlink
penalty keyed on the *field* ("neither link nor title") rather than on the
selector string.  Spec-side definition, for comparison with `scoreElement`. -/
def claimScoreC7 (el : Elem) (selector : Str) (field : FieldKind) : Int :=
  if el.isTag = false then 0
  else
    let textLength : Int := ((cleanContentL el.text).length : Int)
    let tag := lowerStr el.tagName
    let selLC := lowerStr selector
    let tagBonus : Int :=
      if tag = ("h1".toList) ∨ tag = ("h2".toList) ∨ tag = ("h3".toList) then 30
      else if tag = ("h4".toList) ∨ tag = ("h5".toList) ∨ tag = ("h6".toList) then 15
      else if tag = ("p".toList) then 5
      else 0
    let hintTitle : Int :=
      if hasHint ("title".toList) selLC || hasHint ("headline".toList) selLC then 20 else 0
    let hintContent : Int :=
      if hasHint ("content".toList) selLC || hasHint ("body".toList) selLC ||
          hasHint ("article".toList) selLC then 10 else 0
    let denyPen : Int := if el.inDenySection then 50 else 0
    let linkPen : Int :=
      if tag = ("a".toList) ∧ field ≠ FieldKind.link ∧ field ≠ FieldKind.title then 10 else 0
    max 0 (textLength + tagBonus + hintTitle + hintContent - denyPen - linkPen)

/-- The score formula of the claim amended at the one diverging clause: the
hyperlink penalty applies when the *selector string* mentions neither `link`
nor `title` (case-insensitive), as the code's line 149 tests. -/
def amendedScoreC7 (el : Elem) (selector : Str) : Int :=
  if el.isTag = false then 0
  else
    let textLength : Int := ((cleanContentL el.text).length : Int)
    let tag := lowerStr el.tagName
    let selLC := lowerStr selector
    let tagBonus : Int :=
      if tag = ("h1".toList) ∨ tag = ("h2".toList) ∨ tag = ("h3".toList) then 30
      else if tag = ("h4".toList) ∨ tag = ("h5".toList) ∨ tag = ("h6".toList) then 15
      else if tag = ("p".toList) then 5
      else 0
    let hintTitle : Int :=
      if hasHint ("title".toList) selLC || hasHint ("headline".toList) selLC then 20 else 0
    let hintContent : Int :=
      if hasHint ("content".toList) selLC || hasHint ("body".toList) selLC ||
          hasHint ("article".toList) selLC then 10 else 0
    let denyPen : Int := if el.inDenySection then 50 else 0
    let linkPen : Int :=
      if tag = ("a".toList) && !hasHint ("link".toList) selLC &&
          !hasHint ("title".toList) selLC then 10 else 0
    max 0 (textLength + tagBonus + hintTitle + hintContent - denyPen - linkPen)

/-- A `SelectorConfig` (lines 40-45): ordered selector strings, optional
minimum length, required flag (`priority` is unused by the code). -/
structure SelCfg where
  selectors : List Str
  minLength : Option Nat
  required : Bool
deriving DecidableEq

/-- `str.startsWith(p)`. -/
def strStarts (s p : Str) : Bool := p.isPrefixOf s

/-- JavaScript `a || b` on strings (empty string is falsy). -/
def orNE (a b : Str) : Str := if a = [] then b else a

/-- `s.split(' ')[0]`. -/
def firstWord (s : Str) : Str := s.takeWhile (fun c => c ≠ ' ')

/-- The candidate value computed per field inside `selectBest`
(lines 490-503): href for links; src / data-src / first srcset entry for
images; datetime attribute or cleaned text for dates; cleaned text otherwise. -/
def candValue (field : FieldKind) (el : Elem) : Str :=
  match field with
  | FieldKind.link => el.href.getD []
  | FieldKind.imageUrl =>
    orNE (el.src.getD [])
      (orNE (el.dataSrc.getD [])
        (match el.srcset with | none => [] | some s => firstWord s))
  | FieldKind.publishedDate => orNE (el.datetime.getD []) (cleanContentL el.text)
  | _ => cleanContentL el.text

/-- The candidate score computed per field inside `selectBest`
(lines 490-503): 0/1 for link/image/date, `scoreElement` otherwise. -/
def candScore (field : FieldKind) (sel : Str) (el : Elem) : Int :=
  match field with
  | FieldKind.link =>
    if strStarts (el.href.getD []) ("http".toList) ||
        strStarts (el.href.getD []) ("/".toList) then 1 else 0
  | FieldKind.imageUrl => if candValue FieldKind.imageUrl el = [] then 0 else 1
  | FieldKind.publishedDate => if candValue FieldKind.publishedDate el = [] then 0 else 1
  | _ => scoreElement el sel

/-- The minimum-length gate (line 505): `!minLength || length ≥ minLength`. -/
def meetsMin (cfg : SelCfg) (t : Str) : Bool :=
  match cfg.minLength with
  | none => true
  | some m => m ≤ t.length

/-- One `elements.each` step of `selectBest` (lines 478-512): skip hidden
nodes, compute value and score, replace the best on a strictly greater score. -/
def selUpdate (field : FieldKind) (cfg : SelCfg) (sel : Str)
    (acc : Str × Int × Option Elem) (el : Elem) : Str × Int × Option Elem :=
  if el.displayNone || el.visibilityHidden then acc
  else
    let v := candValue field el
    let sc := candScore field sel el
    if meetsMin cfg v && decide (acc.2.1 < sc) then (v, sc, some el) else acc

/-- The selector/element double loop of `selectBest` (lines 471-516), starting
from `bestMatchText = ''`, `bestScore = -1`, `bestElement = null`.
`find sel` stands for `context.find(sel)` in document order. -/
def selectBestCore (find : Str → List Elem) (cfg : SelCfg) (field : FieldKind) :
    Str × Int × Option Elem :=
  cfg.selectors.foldl (fun acc sel => (find sel).foldl (selUpdate field cfg sel) acc)
    ([], -1, none)

/-- `selectBest` (lines 466-542), including the full-content special case
(lines 524-538): for the `fullContent` field, the cleaned inner HTML of the
best element replaces the best text when non-empty and strictly longer. -/
def selectBest (find : Str → List Elem) (cfg : SelCfg) (field : FieldKind) : Str :=
  let r := selectBestCore find cfg field
  if field = FieldKind.fullContent then
    match r.2.2 with
    | some el =>
      match el.innerHtml with
      | some h =>
        if h ≠ [] ∧ r.1.length < (cleanContentL h).length then cleanContentL h else r.1
      | none => r.1
    | none => r.1
  else r.1

/-- The valid candidates of one `selectBest` call, in encounter order: for
each selector string in order, its matches in document order, dropping hidden
nodes and candidates failing the minimum-length gate. -/
def candList (find : Str → List Elem) (cfg : SelCfg) (field : FieldKind) :
    List (Str × Elem) :=
  ((cfg.selectors.map (fun sel =>
      ((find sel).filter
        (fun el => !(el.displayNone || el.visibilityHidden))).map
        (fun el => (sel, el)))).flatten).filter
    (fun p => meetsMin cfg (candValue field p.2))

/-- The fold of `selUpdate` restricted to an explicit candidate list. -/
def foldPairs (field : FieldKind) (l : List (Str × Elem))
    (acc : Str × Int × Option Elem) : Str × Int × Option Elem :=
  l.foldl (fun acc p =>
    let sc := candScore field p.1 p.2
    if acc.2.1 < sc then (candValue field p.2, sc, some p.2) else acc) acc

/-- The maximum candidate score of a list (`-1` for the empty list, matching
the initial `bestScore`). -/
def maxScore (field : FieldKind) (l : List (Str × Elem)) : Int :=
  l.foldr (fun p m => max (candScore field p.1 p.2) m) (-1)

/-! ## URL Resolver (`resolveUrl`, lines 80-92) -/

/-- The scheme of a serialized URL: the characters before the first `:`. -/
def schemeOf (s : Str) : Str := s.takeWhile (fun c => c ≠ ':')

/-- `resolveUrl` (lines 80-92), parametric in the platform URL parser:
`parse base rel` stands for `new URL(rel, new URL(base)).toString()`, with
`none` when either construction throws.  The wrapper returns `''` for a falsy
candidate (`undefined` or `''`), returns `''` when parsing throws, and keeps
the resolved string only when it starts with `http`. -/
def resolveUrl (parse : Str → Str → Option Str) (base : Str) (rel : Option Str) : Str :=
  match rel with
  | none => []
  | some r =>
    if r = [] then []
    else
      match parse base r with
      | none => []
      | some resolved => if strStarts resolved ("http".toList) then resolved else []

/-- Models the platform WHATWG URL parser (Node's `new URL`) on one concrete
behavior needed below: an already-absolute URL with a non-special scheme and a
simple opaque host serializes to itself (e.g. `new URL('httpx://a')` prints
`httpx://a`). -/
def parseModelAbs : Str → Str → Option Str := fun _ r => some r

/-! ## Article Harvester and Batch Orchestrator
(`performScraping`, lines 392-699; `scrapeAndStoreArticles`, lines 710-808). -/

/-- One article-container candidate, carrying the outcomes of the per-field
extraction steps of `performScraping` (lines 553-658): `url` is the already
resolved link (`resolveUrl(config.url, selectBest(link))`), `title`/`summary`
the extraction results, and `full` the outcome of the full-article fetch and
extraction — `none` when that fetch threw (network error, timeout, empty
body), `some t` when `selectBest(fullContent)` returned `t` on the fetched
page. -/
structure Cand where
  url : Str
  title : Str
  summary : Str
  full : Option Str
  imageUrl : Option Str
  publishedDate : Option Str
deriving DecidableEq

/-- The content-length cap `slice(0, 8000)` used on every path (lines 637,
643, 647, 652, 657). -/
def capLen : Nat := 8000

/-- The working-content computation of step 6 (lines 594-658): with the
full-article fetch configured, a successfully fetched, non-empty extraction
strictly longer than the current content replaces it (cleaned and capped);
otherwise — including when the fetch threw — the existing summary content is
cleaned and capped.  Without the fetch, the summary is cleaned and capped. -/
def processContent (fetchFull : Bool) (summary : Str) (full : Option Str) : Str :=
  if fetchFull then
    match full with
    | none => (cleanContentL summary).take capLen
    | some t =>
      if t ≠ [] ∧ summary.length < t.length then (cleanContentL t).take capLen
      else (cleanContentL summary).take capLen
  else (cleanContentL summary).take capLen

/-- A finished article as pushed at line 678. -/
structure Art where
  url : Str
  title : Str
  content : Str
  summary : Str
  source : Str
  imageUrl : Option Str
  publishedDate : Option Str
deriving DecidableEq

/-- The per-candidate loop of `performScraping` (lines 546-690): stop at the
limit; skip on an empty / non-http / already-seen URL (line 557); skip on a
missing title (line 567); compute the working content; drop when shorter than
20 characters (line 663); otherwise emit and mark the URL seen (lines
678-679).  None of the configured sources define a `postprocess` hook, so the
hook application (lines 669-675) is the identity. -/
def harvestGo (name : Str) (fetchFull : Bool) (limit : Nat) :
    List Cand → List Art → List Str → List Art
  | [], arts, _ => arts
  | c :: cs, arts, seen =>
    if limit ≤ arts.length then arts
    else if c.url = [] || !strStarts c.url ("http".toList) || decide (c.url ∈ seen) then
      harvestGo name fetchFull limit cs arts seen
    else if c.title = [] then
      harvestGo name fetchFull limit cs arts seen
    else
      let content := processContent fetchFull c.summary c.full
      if content.length < 20 then
        harvestGo name fetchFull limit cs arts seen
      else
        harvestGo name fetchFull limit cs
          (arts ++ [⟨c.url, c.title, content, c.summary, name, c.imageUrl, c.publishedDate⟩])
          (c.url :: seen)

/-- One source of a batch run: its name, the listing-page outcome (`none`
when the listing fetch failed entirely — network error, timeout, HTTP ≥ 400,
or empty rendered content — which `performScraping` catches at line 695,
returning `[]`), and whether the source config requests the full-article
fetch with non-empty full-content selectors (line 596). -/
structure SourceRun where
  name : Str
  listing : Option (List Cand)
  fetchFull : Bool
deriving DecidableEq

/-- `performScraping` for one source: a failed listing fetch yields no
articles (the catch at lines 695-698 returns `[]` and does not rethrow);
otherwise the candidate loop runs with a fresh `seenUrls` set (line 413). -/
def harvestSource (s : SourceRun) (limit : Nat) : List Art :=
  match s.listing with
  | none => []
  | some cs => harvestGo s.name s.fetchFull limit cs [] []

/-- All articles harvested by a batch, per source (each is then summarized
and stored by `scrapeAndStoreArticles`). -/
def batchArticles (sources : List SourceRun) (limit : Nat) : List Art :=
  (sources.map (fun s => harvestSource s limit)).flatten

/-- One entry of the batch error list (`allErrors`, line 718): the source tag
and, for per-article processing failures, the article URL. -/
structure ErrEntry where
  source : Str
  url : Option Str
deriving DecidableEq

/-- The `ScrapeResult` of `scrapeAndStoreArticles` (lines 28-38, 797-807). -/
structure BatchResult where
  success : Bool
  processedCount : Nat
  sourcesAttempted : Nat
  articlesScraped : Nat
  errors : List ErrEntry
  successRate : ℚ
deriving DecidableEq

/-- `scrapeAndStoreArticles` (lines 710-808): harvest every source (a
harvest-phase exception would be recorded at lines 776-781, but
`performScraping` never throws — it catches internally and returns `[]`);
summarize-and-store each harvested article, `storeOk` giving the per-article
outcome of the external summarize/store collaborators (line 765: a failure
appends an error entry tagged with the article source and URL); aggregate the
counters and the success rate of line 789 capped at 1 (line 805). -/
def runBatch (sources : List SourceRun) (limit : Nat) (storeOk : Str → Bool) :
    BatchResult :=
  let arts := batchArticles sources limit
  let errors := (arts.filter (fun a => !storeOk a.url)).map
    (fun a => ErrEntry.mk a.source (some a.url))
  let processed := (arts.filter (fun a => storeOk a.url)).length
  let scraped := arts.length
  let rate : ℚ :=
    if 0 < scraped then (processed : ℚ) / (scraped : ℚ)
    else if 0 < sources.length then 0 else 1
  { success := errors.length == 0
    processedCount := processed
    sourcesAttempted := sources.length
    articlesScraped := scraped
    errors := errors
    successRate := min 1 rate }

/-! ## Concrete instances used in witnesses and counterexamples -/

/-- A heading element with a short title text (matched by the selector `h2`). -/
def wElemA : Elem :=
  ⟨true, "h2".toList, "Breaking news headline".toList, none, none, none, none, none,
    false, false, false, none⟩

/-- A paragraph element with a longer body text (matched by the selector `p`). -/
def wElemB : Elem :=
  ⟨true, "p".toList,
    "A considerably longer paragraph of body text about the subject".toList,
    none, none, none, none, none, false, false, false, none⟩

/-- A two-selector context: `h2` finds the heading, `p` finds the paragraph. -/
def wFind : Str → List Elem := fun sel =>
  if sel = ("h2".toList) then [wElemA]
  else if sel = ("p".toList) then [wElemB] else []

def wCfg : SelCfg := ⟨[("h2".toList), ("p".toList)], none, false⟩

/-- A hyperlink element reached through a selector string that mentions
neither `link` nor `title`. -/
def c7Elem : Elem :=
  ⟨true, "a".toList, "hello world of text".toList, none, none, none, none, none,
    false, false, false, none⟩

/-- A candidate whose full-article fetch threw (`full = none`) and whose other
fields pass every gate. -/
def wCand : Cand :=
  ⟨"https://example.com/story1".toList, "A headline title".toList,
    "The quick brown fox jumps over the lazy dog".toList, none, none, none⟩

def wSrcA : SourceRun := ⟨"BBC".toList, some [wCand], true⟩

def wSrcB : SourceRun := ⟨"Reuters".toList, some [wCand], true⟩

/-- A source whose listing-page fetch failed entirely. -/
def wFailSrc : SourceRun := ⟨"CNN".toList, none, true⟩

/-- The article `wSrcA` emits for `wCand`. -/
def wArt : Art :=
  ⟨"https://example.com/story1".toList, "A headline title".toList,
    "The quick brown fox jumps over the lazy dog".toList,
    "The quick brown fox jumps over the lazy dog".toList, "BBC".toList, none, none⟩

/-! ## Generic lemmas about the scan-and-replace passes -/

theorem scanStep_nil (m : Char → Str → Option Nat) (repl : Str) (fuel : Nat) :
    scanStep m repl fuel [] = [] := by
  cases fuel <;> rfl

theorem scanStep_zero (m : Char → Str → Option Nat) (repl : Str) (l : Str) :
    scanStep m repl 0 l = l := by
  cases l <;> rfl

theorem scanStep_cons (m : Char → Str → Option Nat) (repl : Str) (fuel : Nat)
    (c : Char) (cs : Str) :
    scanStep m repl (fuel + 1) (c :: cs) =
      match m c cs with
      | some k => repl ++ scanStep m repl fuel (cs.drop k)
      | none => c :: scanStep m repl fuel cs := rfl

theorem mem_scanStep (m : Char → Str → Option Nat) (repl : Str) :
    ∀ fuel l x, x ∈ scanStep m repl fuel l → x ∈ l ∨ x ∈ repl := by
  intro fuel
  induction fuel with
  | zero =>
    intro l x hx
    rw [scanStep_zero] at hx
    exact Or.inl hx
  | succ f ih =>
    intro l x hx
    cases l with
    | nil => rw [scanStep_nil] at hx; exact absurd hx (List.not_mem_nil x)
    | cons c cs =>
      rw [scanStep_cons] at hx
      cases hm : m c cs with
      | some k =>
        rw [hm] at hx
        rcases List.mem_append.mp hx with h | h
        · exact Or.inr h
        · rcases ih (cs.drop k) x h with h' | h'
          · exact Or.inl (List.mem_cons_of_mem c (List.mem_of_mem_drop h'))
          · exact Or.inr h'
      | none =>
        rw [hm] at hx
        rcases List.mem_cons.mp hx with h | h
        · exact Or.inl (h ▸ List.mem_cons_self c cs)
        · rcases ih cs x h with h' | h'
          · exact Or.inl (List.mem_cons_of_mem c h')
          · exact Or.inr h'

theorem scanStep_eq_self (m : Char → Str → Option Nat) (repl : Str) :
    ∀ fuel l, (∀ c cs, (c :: cs) <:+ l → m c cs = none) →
    scanStep m repl fuel l = l := by
  intro fuel
  induction fuel with
  | zero => intro l _; exact scanStep_zero m repl l
  | succ f ih =>
    intro l hnone
    cases l with
    | nil => exact scanStep_nil m repl (f + 1)
    | cons c cs =>
      rw [scanStep_cons]
      rw [hnone c cs (List.suffix_refl (c :: cs))]
      rw [ih cs (fun d ds hds => hnone d ds (hds.trans (List.suffix_cons c cs)))]

theorem scanReplace_eq_self (m : Char → Str → Option Nat) (repl : Str) (l : Str)
    (hnone : ∀ c cs, (c :: cs) <:+ l → m c cs = none) :
    scanReplace m repl l = l :=
  scanStep_eq_self m repl l.length l hnone

/-! ## Lemmas about `noGtB` and `noLtGtB` -/

theorem noGtB_iff (l : Str) : noGtB l = true ↔ ∀ x ∈ l, x ≠ '>' := by
  simp [noGtB]

theorem noLtGtB_cons (c : Char) (cs : Str) :
    noLtGtB (c :: cs) = ((if c = '<' then noGtB cs else true) && noLtGtB cs) := rfl

theorem noLtGtB_tail {c : Char} {cs : Str} (h : noLtGtB (c :: cs) = true) :
    noLtGtB cs = true := by
  rw [noLtGtB_cons, Bool.and_eq_true] at h
  exact h.2

theorem noGtB_of_noLtGtB_lt {cs : Str} (h : noLtGtB ('<' :: cs) = true) :
    noGtB cs = true := by
  rw [noLtGtB_cons, Bool.and_eq_true] at h
  simpa using h.1

theorem noLtGtB_cons_of {c : Char} {cs : Str} (h1 : c = '<' → noGtB cs = true)
    (h2 : noLtGtB cs = true) : noLtGtB (c :: cs) = true := by
  rw [noLtGtB_cons, Bool.and_eq_true]
  refine ⟨?_, h2⟩
  by_cases hc : c = '<'
  · simp [hc, h1 hc]
  · simp [hc]

theorem noGtB_sub {l t : Str} (h : noGtB l = true) (hsub : ∀ x ∈ t, x ∈ l) :
    noGtB t = true := by
  rw [noGtB_iff] at h ⊢
  exact fun x hx => h x (hsub x hx)

theorem noLtGtB_append_right {a b : Str} (h : noLtGtB (a ++ b) = true) :
    noLtGtB b = true := by
  induction a with
  | nil => exact h
  | cons c cs ih => exact ih (noLtGtB_tail h)

theorem noLtGtB_suffix {l t : Str} (h : noLtGtB l = true) (hs : t <:+ l) :
    noLtGtB t = true := by
  obtain ⟨a, rfl⟩ := hs
  exact noLtGtB_append_right h

theorem noLtGtB_append_left {r x : Str} (hr : ∀ a ∈ r, a ≠ '<')
    (h : noLtGtB x = true) : noLtGtB (r ++ x) = true := by
  induction r with
  | nil => exact h
  | cons c cs ih =>
    have hc : c ≠ '<' := hr c (List.mem_cons_self c cs)
    rw [List.cons_append]
    exact noLtGtB_cons_of (fun hcc => absurd hcc hc)
      (ih (fun a ha => hr a (List.mem_cons_of_mem c ha)))

theorem noGtB_prefix {a b : Str} (h : noGtB (a ++ b) = true) : noGtB a = true :=
  noGtB_sub h (fun x hx => List.mem_append_left b hx)

theorem noLtGtB_prefix {l t : Str} (h : noLtGtB l = true) (hp : t <+: l) :
    noLtGtB t = true := by
  obtain ⟨b, rfl⟩ := hp
  induction t with
  | nil => rfl
  | cons c cs ih =>
    refine noLtGtB_cons_of (fun hc => ?_) (ih (noLtGtB_tail h))
    subst hc
    rw [List.cons_append] at h
    exact noGtB_prefix (noGtB_of_noLtGtB_lt h)

theorem drop_len_takeWhile (p : Char → Bool) (l : Str) :
    l.drop (l.takeWhile p).length = l.dropWhile p := by
  induction l with
  | nil => rfl
  | cons c cs ih =>
    by_cases hc : p c
    · rw [List.takeWhile_cons_of_pos hc, List.dropWhile_cons_of_pos hc,
        List.length_cons, List.drop_succ_cons]
      exact ih
    · rw [List.takeWhile_cons_of_neg hc, List.dropWhile_cons_of_neg hc]
      rfl

theorem noGtB_of_mTag_lt_none {cs : Str} (h : mTag '<' cs = none) :
    noGtB cs = true := by
  simp only [mTag, if_pos rfl] at h
  rw [drop_len_takeWhile] at h
  rcases hd : cs.dropWhile (fun d => decide (d ≠ '>')) with _ | ⟨d, ds⟩
  · rw [List.dropWhile_eq_nil_iff] at hd
    rw [noGtB_iff]
    intro x hx
    have := hd x hx
    simpa using this
  · exfalso
    have hhead := List.head?_dropWhile_not (fun d => decide (d ≠ '>')) cs
    rw [hd] at hhead
    simp only [List.head?_cons] at hhead
    have hdgt : d = '>' := by simpa using hhead
    rw [hd, hdgt] at h
    simp at h

theorem tagPass_noLtGt :
    ∀ fuel l, l.length ≤ fuel → noLtGtB (scanStep mTag [' '] fuel l) = true := by
  intro fuel
  induction fuel with
  | zero =>
    intro l hl
    have : l = [] := List.length_eq_zero.mp (Nat.le_zero.mp hl)
    subst this
    rw [scanStep_zero]
    rfl
  | succ f ih =>
    intro l hl
    cases l with
    | nil => rw [scanStep_nil]; rfl
    | cons c cs =>
      rw [scanStep_cons]
      have hcs : cs.length ≤ f := by
        simp only [List.length_cons] at hl
        omega
      cases hm : mTag c cs with
      | some k =>
        dsimp only
        rw [List.singleton_append]
        refine noLtGtB_cons_of (fun hsp => by simp at hsp) ?_
        refine ih (cs.drop k) ?_
        have := List.length_drop k cs
        omega
      | none =>
        dsimp only
        refine noLtGtB_cons_of (fun hc => ?_) (ih cs hcs)
        subst hc
        have hgt : noGtB cs = true := noGtB_of_mTag_lt_none hm
        rw [noGtB_iff]
        intro x hx
        rcases mem_scanStep mTag [' '] f cs x hx with h' | h'
        · exact (noGtB_iff cs).mp hgt x h'
        · intro hxx
          subst hxx
          simp at h'

theorem scanStep_noLtGt_preserve (m : Char → Str → Option Nat) (repl : Str)
    (hr : ∀ a ∈ repl, a ≠ '<' ∧ a ≠ '>') :
    ∀ fuel l, noLtGtB l = true → noLtGtB (scanStep m repl fuel l) = true := by
  intro fuel
  induction fuel with
  | zero => intro l h; rw [scanStep_zero]; exact h
  | succ f ih =>
    intro l h
    cases l with
    | nil => rw [scanStep_nil]; rfl
    | cons c cs =>
      rw [scanStep_cons]
      cases hm : m c cs with
      | some k =>
        refine noLtGtB_append_left (fun a ha => (hr a ha).1) ?_
        exact ih (cs.drop k) (noLtGtB_suffix (noLtGtB_tail h) (List.drop_suffix k cs))
      | none =>
        refine noLtGtB_cons_of (fun hc => ?_) (ih cs (noLtGtB_tail h))
        subst hc
        have hgt : noGtB cs = true := noGtB_of_noLtGtB_lt h
        rw [noGtB_iff]
        intro x hx
        rcases mem_scanStep m repl f cs x hx with h' | h'
        · exact (noGtB_iff cs).mp hgt x h'
        · exact (hr x h').2

theorem reverse_dropWhile_reverse_isPre (p : Char → Bool) (l : Str) :
    (l.reverse.dropWhile p).reverse <+: l := by
  obtain ⟨t, ht⟩ : ∃ t, t ++ l.reverse.dropWhile p = l.reverse :=
    List.dropWhile_suffix p
  refine ⟨t.reverse, ?_⟩
  rw [← List.reverse_append, ht, List.reverse_reverse]

theorem trimL_noLtGt {l : Str} (h : noLtGtB l = true) :
    noLtGtB (trimL l) = true := by
  unfold trimL
  refine noLtGtB_prefix ?_ (reverse_dropWhile_reverse_isPre jsWs (l.dropWhile jsWs))
  exact noLtGtB_suffix h (List.dropWhile_suffix jsWs)

theorem cleanContentL_noLtGt (l : Str) : noLtGtB (cleanContentL l) = true := by
  unfold cleanContentL stage6
  apply trimL_noLtGt
  apply scanStep_noLtGt_preserve mShare [] (by intro a ha; simp at ha)
  apply scanStep_noLtGt_preserve mAdv [] (by intro a ha; simp at ha)
  apply scanStep_noLtGt_preserve mWs [' ']
    (by intro a ha; simp at ha; subst ha; constructor <;> decide)
  apply scanStep_noLtGt_preserve mNl [' ']
    (by intro a ha; simp at ha; subst ha; constructor <;> decide)
  exact tagPass_noLtGt _ _ (Nat.le_refl _)

/-! ## Lemmas about `noWsRun` -/

theorem noWsRun_cons_cons (a b : Char) (t : Str) :
    noWsRun (a :: b :: t) = ((!(jsWs a && jsWs b)) && noWsRun (b :: t)) := rfl

theorem noWsRun_tail {a : Char} {t : Str} (h : noWsRun (a :: t) = true) :
    noWsRun t = true := by
  cases t with
  | nil => rfl
  | cons b t' =>
    rw [noWsRun_cons_cons, Bool.and_eq_true] at h
    exact h.2

theorem noWsRun_cons_of {a : Char} {t : Str}
    (h1 : ∀ d, t.head? = some d → (jsWs a && jsWs d) = false)
    (h2 : noWsRun t = true) : noWsRun (a :: t) = true := by
  cases t with
  | nil => rfl
  | cons b t' =>
    rw [noWsRun_cons_cons, Bool.and_eq_true]
    exact ⟨by rw [h1 b rfl]; rfl, h2⟩

theorem noWsRun_append_right {x y : Str} (h : noWsRun (x ++ y) = true) :
    noWsRun y = true := by
  induction x with
  | nil => exact h
  | cons a x' ih => exact ih (noWsRun_tail h)

theorem noWsRun_suffix {l t : Str} (h : noWsRun l = true) (hs : t <:+ l) :
    noWsRun t = true := by
  obtain ⟨a, rfl⟩ := hs
  exact noWsRun_append_right h

theorem noWsRun_prefix_append {x y : Str} (h : noWsRun (x ++ y) = true) :
    noWsRun x = true := by
  induction x with
  | nil => rfl
  | cons a x' ih =>
    cases x' with
    | nil => rfl
    | cons b x'' =>
      have h' : noWsRun (a :: b :: (x'' ++ y)) = true := h
      rw [noWsRun_cons_cons, Bool.and_eq_true] at h'
      rw [noWsRun_cons_cons, Bool.and_eq_true]
      exact ⟨h'.1, ih h'.2⟩

theorem noWsRun_prefix {l t : Str} (h : noWsRun l = true) (hp : t <+: l) :
    noWsRun t = true := by
  obtain ⟨b, rfl⟩ := hp
  exact noWsRun_prefix_append h

theorem trimL_noWsRun {l : Str} (h : noWsRun l = true) :
    noWsRun (trimL l) = true := by
  unfold trimL
  refine noWsRun_prefix ?_ (reverse_dropWhile_reverse_isPre jsWs (l.dropWhile jsWs))
  exact noWsRun_suffix h (List.dropWhile_suffix jsWs)

theorem mWs_fire {c : Char} {cs : Str} {k : Nat} (h : mWs c cs = some k) :
    jsWs c = true ∧ k = (cs.takeWhile jsWs).length ∧ (cs.takeWhile jsWs).length ≠ 0 := by
  simp only [mWs] at h
  by_cases hc : jsWs c = true
  · rw [if_pos hc] at h
    by_cases hr : (cs.takeWhile jsWs).length = 0
    · rw [if_pos hr] at h; exact absurd h (by simp)
    · rw [if_neg hr] at h
      exact ⟨hc, (Option.some_inj.mp h).symm, hr⟩
  · rw [if_neg hc] at h; exact absurd h (by simp)

theorem mWs_none_of {c : Char} {cs : Str}
    (h : jsWs c = false ∨ (cs.takeWhile jsWs).length = 0) : mWs c cs = none := by
  simp only [mWs]
  rcases h with h | h
  · rw [h]; rfl
  · by_cases hc : jsWs c = true
    · rw [if_pos hc, if_pos h]
    · rw [if_neg hc]

theorem wsPass_strong :
    ∀ fuel l, l.length ≤ fuel →
    noWsRun (scanStep mWs [' '] fuel l) = true ∧
    (∀ d ds, l = d :: ds → jsWs d = false →
      ∃ t, scanStep mWs [' '] fuel l = d :: t) := by
  intro fuel
  induction fuel with
  | zero =>
    intro l hl
    have : l = [] := List.length_eq_zero.mp (Nat.le_zero.mp hl)
    subst this
    exact ⟨rfl, fun d ds hds => by simp at hds⟩
  | succ f ih =>
    intro l hl
    cases l with
    | nil => exact ⟨by rw [scanStep_nil]; rfl, fun d ds hds => by simp at hds⟩
    | cons c cs =>
      have hcs : cs.length ≤ f := by
        simp only [List.length_cons] at hl
        omega
      rw [scanStep_cons]
      cases hm : mWs c cs with
      | some k =>
        dsimp only
        obtain ⟨hwc, hk, hk0⟩ := mWs_fire hm
        have hdrop : cs.drop k = cs.dropWhile jsWs := by
          rw [hk]; exact drop_len_takeWhile jsWs cs
        rw [hdrop, List.singleton_append]
        have hrestlen : (cs.dropWhile jsWs).length ≤ f :=
          Nat.le_trans (List.dropWhile_suffix jsWs).length_le hcs
        constructor
        · cases hrest : cs.dropWhile jsWs with
          | nil => rw [scanStep_nil]; rfl
          | cons e es =>
            have hews : jsWs e = false := by
              have hh := List.head?_dropWhile_not jsWs cs
              rw [hrest] at hh
              simpa using hh
            rw [hrest] at hrestlen
            obtain ⟨hrun, hhead⟩ := ih (e :: es) hrestlen
            obtain ⟨t, ht⟩ := hhead e es rfl hews
            rw [ht]
            rw [ht] at hrun
            exact noWsRun_cons_of (fun d hd => by
              rw [List.head?_cons] at hd
              rw [← Option.some_inj.mp hd, hews, Bool.and_false]) hrun
        · intro d ds hds hdws
          exfalso
          have hdc : c = d := by injection hds
          rw [← hdc, hwc] at hdws
          simp at hdws
      | none =>
        dsimp only
        refine ⟨?_, fun d ds hds _ => ⟨scanStep mWs [' '] f cs, by
          injection hds with h1 _
          rw [h1]⟩⟩
        cases hcs' : cs with
        | nil => rw [scanStep_nil]; rfl
        | cons e es =>
          rw [hcs'] at hcs hm
          obtain ⟨hrun, hhead⟩ := ih (e :: es) hcs
          by_cases hwc : jsWs c = true
          · have hews : jsWs e = false := by
              by_contra hcon
              have hew : jsWs e = true := by
                cases hje : jsWs e
                · exact absurd hje hcon
                · rfl
              have hne : ((e :: es).takeWhile jsWs).length ≠ 0 := by
                rw [List.takeWhile_cons_of_pos hew]
                simp
              simp only [mWs, if_pos hwc] at hm
              rw [if_neg hne] at hm
              simp at hm
            obtain ⟨t, ht⟩ := hhead e es rfl hews
            rw [ht]
            rw [ht] at hrun
            exact noWsRun_cons_of (fun d hd => by
              rw [List.head?_cons] at hd
              rw [← Option.some_inj.mp hd, hews, Bool.and_false]) hrun
          · have hwc' : jsWs c = false := by
              cases hje : jsWs c
              · rfl
              · exact absurd hje hwc
            exact noWsRun_cons_of (fun d _ => by rw [hwc']; rfl) hrun

theorem wsPass_noWsRun (l : Str) : noWsRun (scanReplace mWs [' '] l) = true :=
  (wsPass_strong l.length l (Nat.le_refl _)).1

/-! ## Identity of passes that find nothing to replace -/

theorem ciStarts_eq_false_of_findCi_none {needle l : Str} (h : findCi needle l = none) :
    ∀ c cs, (c :: cs) <:+ l → ciStarts needle (c :: cs) = false := by
  induction l with
  | nil =>
    intro c cs hs
    have := List.eq_nil_of_suffix_nil hs
    simp at this
  | cons a l' ih =>
    intro c cs hs
    simp only [findCi] at h
    by_cases hci : ciStarts needle (a :: l') = true
    · rw [if_pos hci] at h; simp at h
    · rw [if_neg hci] at h
      rcases List.suffix_cons_iff.mp hs with he | hs'
      · cases hcc : ciStarts needle (c :: cs)
        · rfl
        · exact absurd (by rw [← he]; exact hcc) hci
      · exact ih (by simpa using h) c cs hs'

theorem phrase_passes_id {x : Str}
    (h7 : findCi ("advertisement".toList) x = none)
    (h8 : findCi ("share this story".toList) x = none) :
    scanReplace mShare [] (scanReplace mAdv [] x) = x := by
  have e7 : scanReplace mAdv [] x = x :=
    scanReplace_eq_self _ _ _ (fun c cs hs => by
      unfold mAdv
      rw [ciStarts_eq_false_of_findCi_none h7 c cs hs]
      simp)
  rw [e7]
  exact scanReplace_eq_self _ _ _ (fun c cs hs => by
    unfold mShare
    rw [ciStarts_eq_false_of_findCi_none h8 c cs hs]
    simp)

theorem stage6_noWsRun (l : Str) : noWsRun (stage6 l) = true := by
  unfold stage6
  exact wsPass_noWsRun _

/-! ## The normalizer output contains no newline-class characters -/

theorem nlPass_no_nl :
    ∀ fuel l, l.length ≤ fuel →
    ∀ x ∈ scanStep mNl [' '] fuel l, nlCh x = false := by
  intro fuel
  induction fuel with
  | zero =>
    intro l hl x hx
    have : l = [] := List.length_eq_zero.mp (Nat.le_zero.mp hl)
    subst this
    rw [scanStep_zero] at hx
    simp at hx
  | succ f ih =>
    intro l hl x hx
    cases l with
    | nil => rw [scanStep_nil] at hx; simp at hx
    | cons c cs =>
      have hcs : cs.length ≤ f := by
        simp only [List.length_cons] at hl
        omega
      rw [scanStep_cons] at hx
      cases hm : mNl c cs with
      | some k =>
        rw [hm] at hx
        rcases List.mem_append.mp hx with h' | h'
        · have : x = ' ' := by simpa using h'
          rw [this]; rfl
        · refine ih (cs.drop k) ?_ x h'
          have := List.length_drop k cs
          omega
      | none =>
        rw [hm] at hx
        have hcnl : nlCh c = false := by
          by_contra hcon
          have : nlCh c = true := by
            cases hje : nlCh c
            · exact absurd hje hcon
            · rfl
          simp [mNl, this] at hm
        rcases List.mem_cons.mp hx with h' | h'
        · rw [h']; exact hcnl
        · exact ih cs hcs x h'

theorem mem_trimL {l : Str} {x : Char} (h : x ∈ trimL l) : x ∈ l := by
  have h1 : x ∈ (l.dropWhile jsWs) :=
    (reverse_dropWhile_reverse_isPre jsWs (l.dropWhile jsWs)).sublist.mem h
  exact (List.dropWhile_suffix jsWs).sublist.mem h1

theorem cleanContentL_no_nl (l : Str) : ∀ x ∈ cleanContentL l, nlCh x = false := by
  intro x hx
  unfold cleanContentL stage6 at hx
  have h1 := mem_trimL hx
  rcases mem_scanStep _ _ _ _ _ h1 with h2 | h2
  swap
  · simp at h2
  rcases mem_scanStep _ _ _ _ _ h2 with h3 | h3
  swap
  · simp at h3
  rcases mem_scanStep _ _ _ _ _ h3 with h4 | h4
  swap
  · have : x = ' ' := by simpa using h4
    rw [this]; rfl
  exact nlPass_no_nl _ _ (Nat.le_refl _) x h4

/-! ## Trimming is idempotent -/

theorem dropWhile_eq_self_of_head {p : Char → Bool} {l : Str}
    (h : ∀ d, l.head? = some d → p d = false) : l.dropWhile p = l := by
  cases l with
  | nil => rfl
  | cons c cs =>
    have := h c rfl
    exact List.dropWhile_cons_of_neg (by rw [this]; simp)

theorem trimL_head {l : Str} : ∀ d, (trimL l).head? = some d → jsWs d = false := by
  intro d hd
  unfold trimL at hd
  rw [List.head?_reverse] at hd
  set b := (l.dropWhile jsWs).reverse.dropWhile jsWs with hb
  have hbne : b ≠ [] := by
    intro hcon
    rw [hcon] at hd
    simp at hd
  obtain ⟨t, ht⟩ : ∃ t,
      t ++ (l.dropWhile jsWs).reverse.dropWhile jsWs = (l.dropWhile jsWs).reverse :=
    List.dropWhile_suffix jsWs
  have hlast : b.getLast? = ((l.dropWhile jsWs).reverse).getLast? := by
    rw [← ht, List.getLast?_append]
    rcases hbl : b.getLast? with _ | e
    · exact absurd (List.getLast?_eq_none_iff.mp hbl) hbne
    · simp
  rw [hlast, List.getLast?_reverse] at hd
  have hh := List.head?_dropWhile_not jsWs l
  rw [hd] at hh
  simpa using hh

theorem trimL_getLast {l : Str} : ∀ d, (trimL l).getLast? = some d → jsWs d = false := by
  intro d hd
  unfold trimL at hd
  rw [List.getLast?_reverse] at hd
  have hh := List.head?_dropWhile_not jsWs (l.dropWhile jsWs).reverse
  rw [hd] at hh
  simpa using hh

theorem trimL_eq_self {l : Str}
    (h1 : ∀ d, l.head? = some d → jsWs d = false)
    (h2 : ∀ d, l.getLast? = some d → jsWs d = false) : trimL l = l := by
  unfold trimL
  rw [dropWhile_eq_self_of_head h1]
  rw [dropWhile_eq_self_of_head (by
    intro d hd
    rw [List.head?_reverse] at hd
    exact h2 d hd)]
  exact List.reverse_reverse l

theorem trimL_trimL (l : Str) : trimL (trimL l) = trimL l :=
  trimL_eq_self trimL_head trimL_getLast

/-! ## On a normalized string every pass finds nothing to replace -/

theorem mScript_none_of_noLtGt {c : Char} {cs : Str}
    (h : noLtGtB (c :: cs) = true) : mScript c cs = none := by
  simp only [mScript]
  split
  case isTrue hc =>
    have hceq : c = '<' := by
      rw [Bool.and_eq_true] at hc
      exact of_decide_eq_true hc.1
    subst hceq
    have hgt : noGtB cs = true := noGtB_of_noLtGtB_lt h
    split
    case h_1 body heq =>
      exfalso
      have hin : '>' ∈ cs :=
        List.mem_of_mem_drop
          (List.mem_of_mem_drop (heq ▸ List.mem_cons_self '>' body))
      exact absurd rfl ((noGtB_iff cs).mp hgt '>' hin)
    case h_2 => rfl
  case isFalse => rfl

theorem mStyle_none_of_noLtGt {c : Char} {cs : Str}
    (h : noLtGtB (c :: cs) = true) : mStyle c cs = none := by
  simp only [mStyle]
  split
  case isTrue hc =>
    have hceq : c = '<' := by
      rw [Bool.and_eq_true] at hc
      exact of_decide_eq_true hc.1
    subst hceq
    have hgt : noGtB cs = true := noGtB_of_noLtGtB_lt h
    split
    case h_1 body heq =>
      exfalso
      have hin : '>' ∈ cs :=
        List.mem_of_mem_drop
          (List.mem_of_mem_drop (heq ▸ List.mem_cons_self '>' body))
      exact absurd rfl ((noGtB_iff cs).mp hgt '>' hin)
    case h_2 => rfl
  case isFalse => rfl

theorem findSub_suffix {needle l : Str} (h : (findSub needle l).isSome = true) :
    ∃ t, t <:+ l ∧ needle.isPrefixOf t = true := by
  induction l with
  | nil =>
    simp only [findSub] at h
    split at h
    case isTrue hp => exact ⟨[], List.suffix_refl [], hp⟩
    case isFalse => simp at h
  | cons c cs ih =>
    simp only [findSub] at h
    split at h
    case isTrue hp => exact ⟨c :: cs, List.suffix_refl _, hp⟩
    case isFalse =>
      rw [Option.isSome_map'] at h
      obtain ⟨t, ht, hp⟩ := ih h
      exact ⟨t, ht.trans (List.suffix_cons c cs), hp⟩

theorem mComment_none_of_noLtGt {c : Char} {cs : Str}
    (h : noLtGtB (c :: cs) = true) : mComment c cs = none := by
  simp only [mComment]
  split
  case isTrue hc =>
    have hceq : c = '<' := by
      rw [Bool.and_eq_true] at hc
      exact of_decide_eq_true hc.1
    subst hceq
    have hgt : noGtB cs = true := noGtB_of_noLtGtB_lt h
    rcases hf : findSub ("-->".toList) (cs.drop 3) with _ | i
    · rfl
    · exfalso
      obtain ⟨t, ht, hp⟩ :
          ∃ t, t <:+ cs.drop 3 ∧ ("-->".toList).isPrefixOf t = true :=
        findSub_suffix (by rw [hf]; rfl)
      have hgtmem : '>' ∈ t :=
        (List.isPrefixOf_iff_prefix.mp hp).sublist.mem (by decide)
      have hincs : '>' ∈ cs := List.mem_of_mem_drop (ht.sublist.mem hgtmem)
      exact absurd rfl ((noGtB_iff cs).mp hgt '>' hincs)
  case isFalse => rfl

theorem mTag_none_of_noLtGt {c : Char} {cs : Str}
    (h : noLtGtB (c :: cs) = true) : mTag c cs = none := by
  simp only [mTag]
  split
  case isTrue hc =>
    subst hc
    have hgt : noGtB cs = true := noGtB_of_noLtGtB_lt h
    split
    case h_1 body heq =>
      exfalso
      have hin : '>' ∈ cs :=
        List.mem_of_mem_drop (heq ▸ List.mem_cons_self '>' body)
      exact absurd rfl ((noGtB_iff cs).mp hgt '>' hin)
    case h_2 => rfl
  case isFalse => rfl

theorem mNl_none_of_no_nl {c : Char} {cs : Str} (h : nlCh c = false) :
    mNl c cs = none := by
  simp [mNl, h]

theorem mWs_none_of_noWsRun {c : Char} {cs : Str}
    (h : noWsRun (c :: cs) = true) : mWs c cs = none := by
  cases cs with
  | nil => exact mWs_none_of (Or.inr rfl)
  | cons e es =>
    by_cases hwc : jsWs c = true
    · have hpair := h
      rw [noWsRun_cons_cons, Bool.and_eq_true] at hpair
      have hews : jsWs e = false := by
        rcases hje : jsWs e
        · rfl
        · exfalso
          have := hpair.1
          rw [hwc, hje] at this
          simp at this
      refine mWs_none_of (Or.inr ?_)
      rw [List.takeWhile_cons_of_neg (by rw [hews]; simp)]
      rfl
    · refine mWs_none_of (Or.inl ?_)
      rcases hje : jsWs c
      · rfl
      · exact absurd hje hwc

/-- The normalizer is a projection: on a string that is already fully
normalized — no complete tag structure, no newline-class characters, no
whitespace runs, no boilerplate phrases, trimmed — every pass is the
identity. -/
theorem cleanContentL_fix {t : Str}
    (hlt : noLtGtB t = true)
    (hnl : ∀ x ∈ t, nlCh x = false)
    (hws : noWsRun t = true)
    (h7 : findCi ("advertisement".toList) t = none)
    (h8 : findCi ("share this story".toList) t = none)
    (htr : trimL t = t) : cleanContentL t = t := by
  have e1 : scanReplace mScript [] t = t :=
    scanReplace_eq_self _ _ _ (fun c cs hs =>
      mScript_none_of_noLtGt (noLtGtB_suffix hlt hs))
  have e2 : scanReplace mStyle [] t = t :=
    scanReplace_eq_self _ _ _ (fun c cs hs =>
      mStyle_none_of_noLtGt (noLtGtB_suffix hlt hs))
  have e3 : scanReplace mComment [] t = t :=
    scanReplace_eq_self _ _ _ (fun c cs hs =>
      mComment_none_of_noLtGt (noLtGtB_suffix hlt hs))
  have e4 : scanReplace mTag [' '] t = t :=
    scanReplace_eq_self _ _ _ (fun c cs hs =>
      mTag_none_of_noLtGt (noLtGtB_suffix hlt hs))
  have e5 : scanReplace mNl [' '] t = t :=
    scanReplace_eq_self _ _ _ (fun c cs hs =>
      mNl_none_of_no_nl (hnl c (hs.sublist.mem (List.mem_cons_self c cs))))
  have e6 : scanReplace mWs [' '] t = t :=
    scanReplace_eq_self _ _ _ (fun c cs hs =>
      mWs_none_of_noWsRun (noWsRun_suffix hws hs))
  unfold cleanContentL stage6
  rw [e1, e2, e3, e4, e5, e6, phrase_passes_id h7 h8, htr]

/-! ## The Field Extractor returns the first highest-scoring valid candidate -/

theorem scoreElement_nonneg (el : Elem) (sel : Str) : 0 ≤ scoreElement el sel := by
  unfold scoreElement
  split
  · exact le_refl 0
  · exact le_max_left 0 _

theorem candScore_nonneg (field : FieldKind) (sel : Str) (el : Elem) :
    0 ≤ candScore field sel el := by
  cases field <;> simp only [candScore] <;>
    first
      | (split <;> decide)
      | exact scoreElement_nonneg el sel

theorem foldPairs_nil (field : FieldKind) (acc : Str × Int × Option Elem) :
    foldPairs field [] acc = acc := rfl

theorem foldPairs_cons (field : FieldKind) (p : Str × Elem) (l : List (Str × Elem))
    (acc : Str × Int × Option Elem) :
    foldPairs field (p :: l) acc =
      foldPairs field l
        (if acc.2.1 < candScore field p.1 p.2 then
          (candValue field p.2, candScore field p.1 p.2, some p.2)
        else acc) := rfl

theorem foldPairs_append (field : FieldKind) (a b : List (Str × Elem))
    (acc : Str × Int × Option Elem) :
    foldPairs field (a ++ b) acc = foldPairs field b (foldPairs field a acc) := by
  simp [foldPairs, List.foldl_append]

theorem maxScore_nil (field : FieldKind) : maxScore field [] = -1 := rfl

theorem maxScore_cons (field : FieldKind) (p : Str × Elem) (l : List (Str × Elem)) :
    maxScore field (p :: l) = max (candScore field p.1 p.2) (maxScore field l) := rfl

theorem le_maxScore_of_mem {field : FieldKind} :
    ∀ {l : List (Str × Elem)} {q : Str × Elem}, q ∈ l →
    candScore field q.1 q.2 ≤ maxScore field l := by
  intro l
  induction l with
  | nil => intro q hq; simp at hq
  | cons p l' ih =>
    intro q hq
    rw [maxScore_cons]
    rcases List.mem_cons.mp hq with h | h
    · rw [h]; exact le_max_left _ _
    · exact le_trans (ih h) (le_max_right _ _)

theorem foldPairs_low {field : FieldKind} :
    ∀ (l : List (Str × Elem)) (bt : Str) (b : Int) (be : Option Elem),
    maxScore field l ≤ b → foldPairs field l (bt, b, be) = (bt, b, be) := by
  intro l
  induction l with
  | nil => intro bt b be _; rfl
  | cons p l' ih =>
    intro bt b be h
    rw [maxScore_cons, max_le_iff] at h
    rw [foldPairs_cons, if_neg (not_lt.mpr h.1)]
    exact ih bt b be h.2

theorem foldPairs_high {field : FieldKind} :
    ∀ (l : List (Str × Elem)) (bt : Str) (b : Int) (be : Option Elem),
    -1 ≤ b → b < maxScore field l →
    ∃ p, l.find? (fun q => candScore field q.1 q.2 == maxScore field l) = some p ∧
      foldPairs field l (bt, b, be) =
        (candValue field p.2, candScore field p.1 p.2, some p.2) ∧
      candScore field p.1 p.2 = maxScore field l := by
  intro l
  induction l with
  | nil =>
    intro bt b be h1 h2
    rw [maxScore_nil] at h2
    omega
  | cons p l' ih =>
    intro bt b be h1 h2
    by_cases hcase : maxScore field l' ≤ candScore field p.1 p.2
    · have hM : maxScore field (p :: l') = candScore field p.1 p.2 := by
        rw [maxScore_cons]; exact max_eq_left hcase
      have hb : b < candScore field p.1 p.2 := by rw [hM] at h2; exact h2
      rw [foldPairs_cons, if_pos hb, foldPairs_low l' _ _ _ hcase]
      refine ⟨p, ?_, rfl, hM.symm⟩
      rw [List.find?_cons_of_pos]
      simp [hM]
    · push_neg at hcase
      have hM : maxScore field (p :: l') = maxScore field l' := by
        rw [maxScore_cons]; exact max_eq_right (le_of_lt hcase)
      by_cases hb : b < candScore field p.1 p.2
      · rw [foldPairs_cons, if_pos hb]
        obtain ⟨q, hfind, hfold, hsc⟩ :=
          ih (candValue field p.2) (candScore field p.1 p.2) (some p.2)
            (le_trans (by norm_num) (candScore_nonneg field p.1 p.2)) hcase
        refine ⟨q, ?_, hfold, by rw [hM]; exact hsc⟩
        rw [hM, List.find?_cons_of_neg _ (by simp only [beq_iff_eq]; omega)]
        exact hfind
      · push_neg at hb
        rw [foldPairs_cons, if_neg (not_lt.mpr hb)]
        have h2' : b < maxScore field l' := by rw [hM] at h2; exact h2
        obtain ⟨q, hfind, hfold, hsc⟩ := ih bt b be h1 h2'
        refine ⟨q, ?_, hfold, by rw [hM]; exact hsc⟩
        rw [hM, List.find?_cons_of_neg _ (by simp only [beq_iff_eq]; omega)]
        exact hfind

theorem inner_fold_eq (field : FieldKind) (cfg : SelCfg) (sel : Str) :
    ∀ (els : List Elem) (acc : Str × Int × Option Elem),
    els.foldl (selUpdate field cfg sel) acc =
    foldPairs field
      (((els.filter (fun el => !(el.displayNone || el.visibilityHidden))).map
        (fun el => (sel, el))).filter
          (fun p => meetsMin cfg (candValue field p.2))) acc := by
  intro els
  induction els with
  | nil => intro acc; rfl
  | cons el els' ih =>
    intro acc
    rw [List.foldl_cons]
    by_cases hh : (el.displayNone || el.visibilityHidden) = true
    · rw [List.filter_cons_of_neg (by simp [hh])]
      have hskip : selUpdate field cfg sel acc el = acc := by
        simp [selUpdate, hh]
      rw [hskip]
      exact ih acc
    · have hh' : (el.displayNone || el.visibilityHidden) = false := by
        cases hje : (el.displayNone || el.visibilityHidden)
        · rfl
        · exact absurd hje hh
      rw [List.filter_cons_of_pos (by simp [hh']), List.map_cons]
      by_cases hm : meetsMin cfg (candValue field el) = true
      · rw [List.filter_cons_of_pos (by simpa using hm), foldPairs_cons]
        have hstep : selUpdate field cfg sel acc el =
            (if acc.2.1 < candScore field sel el then
              (candValue field el, candScore field sel el, some el)
            else acc) := by
          simp [selUpdate, hh', hm]
        rw [hstep]
        exact ih _
      · rw [List.filter_cons_of_neg (by simpa using hm)]
        have hskip : selUpdate field cfg sel acc el = acc := by
          have hm' : meetsMin cfg (candValue field el) = false := by
            cases hje : meetsMin cfg (candValue field el)
            · rfl
            · exact absurd hje hm
          simp [selUpdate, hh', hm']
        rw [hskip]
        exact ih acc

theorem selectBestCore_eq (find : Str → List Elem) (cfg : SelCfg) (field : FieldKind) :
    selectBestCore find cfg field = foldPairs field (candList find cfg field) ([], -1, none) := by
  unfold selectBestCore candList
  suffices aux : ∀ (sels : List Str) (acc : Str × Int × Option Elem),
      sels.foldl (fun acc sel => (find sel).foldl (selUpdate field cfg sel) acc) acc =
      foldPairs field
        (((sels.map (fun sel =>
          ((find sel).filter
            (fun el => !(el.displayNone || el.visibilityHidden))).map
            (fun el => (sel, el)))).flatten).filter
          (fun p => meetsMin cfg (candValue field p.2))) acc by
    exact aux cfg.selectors ([], -1, none)
  intro sels
  induction sels with
  | nil => intro acc; rfl
  | cons sel sels' ih =>
    intro acc
    rw [List.foldl_cons, ih, List.map_cons, List.flatten_cons, List.filter_append,
      foldPairs_append, ← inner_fold_eq]

/-! ## Harvester invariants -/

theorem processContent_le (ff : Bool) (s : Str) (f : Option Str) :
    (processContent ff s f).length ≤ 8000 := by
  unfold processContent capLen
  split
  · cases f with
    | none => exact List.length_take_le _ _
    | some t =>
      dsimp only
      split
      · exact List.length_take_le _ _
      · exact List.length_take_le _ _
  · exact List.length_take_le _ _

theorem harvestGo_bounds (name : Str) (ff : Bool) (limit : Nat) :
    ∀ (cands : List Cand) (arts : List Art) (seen : List Str),
    (∀ a ∈ arts, 20 ≤ a.content.length ∧ a.content.length ≤ 8000) →
    ∀ a ∈ harvestGo name ff limit cands arts seen,
      20 ≤ a.content.length ∧ a.content.length ≤ 8000 := by
  intro cands
  induction cands with
  | nil => intro arts seen hinv a ha; exact hinv a ha
  | cons c cs ih =>
    intro arts seen hinv a ha
    simp only [harvestGo] at ha
    split_ifs at ha with h1 h2 h3 h4
    · exact hinv a ha
    · exact ih arts seen hinv a ha
    · exact ih arts seen hinv a ha
    · exact ih arts seen hinv a ha
    · refine ih _ _ ?_ a ha
      intro b hb
      rcases List.mem_append.mp hb with hb' | hb'
      · exact hinv b hb'
      · have hbe : b = ⟨c.url, c.title, processContent ff c.summary c.full,
            c.summary, name, c.imageUrl, c.publishedDate⟩ := by simpa using hb'
        rw [hbe]
        refine ⟨?_, processContent_le ff c.summary c.full⟩
        simp only
        omega

theorem harvestGo_nodup (name : Str) (ff : Bool) (limit : Nat) :
    ∀ (cands : List Cand) (arts : List Art) (seen : List Str),
    (∀ a ∈ arts, a.url ∈ seen) → (arts.map Art.url).Nodup →
    ((harvestGo name ff limit cands arts seen).map Art.url).Nodup := by
  intro cands
  induction cands with
  | nil => intro arts seen _ h2; exact h2
  | cons c cs ih =>
    intro arts seen h1 h2
    simp only [harvestGo]
    split_ifs with hA hB hC hD
    · exact h2
    · exact ih arts seen h1 h2
    · exact ih arts seen h1 h2
    · exact ih arts seen h1 h2
    · refine ih _ _ ?_ ?_
      · intro b hb
        rcases List.mem_append.mp hb with hb' | hb'
        · exact List.mem_cons_of_mem _ (h1 b hb')
        · have hbe : b = ⟨c.url, c.title, processContent ff c.summary c.full,
              c.summary, name, c.imageUrl, c.publishedDate⟩ := by simpa using hb'
          rw [hbe]
          exact List.mem_cons_self _ _
      · rw [List.map_append]
        have hnotseen : c.url ∉ seen := by
          intro hmem
          exact hB (by simp [hmem])
        rw [List.nodup_append]
        refine ⟨h2, by simp, ?_⟩
        intro u hu hmem2
        have hu2 : u = c.url := by simpa using hmem2
        obtain ⟨b, hb, hbu⟩ := List.mem_map.mp hu
        exact hnotseen (hu2 ▸ hbu ▸ h1 b hb)

theorem harvestSource_nodup (s : SourceRun) (limit : Nat) :
    ((harvestSource s limit).map Art.url).Nodup := by
  unfold harvestSource
  cases hl : s.listing with
  | none => simp
  | some cs =>
    exact harvestGo_nodup s.name s.fetchFull limit cs [] []
      (by intro a ha; simp at ha) (by simp)

theorem harvestSource_bounds (s : SourceRun) (limit : Nat) :
    ∀ a ∈ harvestSource s limit, 20 ≤ a.content.length ∧ a.content.length ≤ 8000 := by
  unfold harvestSource
  cases hl : s.listing with
  | none => intro a ha; simp at ha
  | some cs =>
    exact harvestGo_bounds s.name s.fetchFull limit cs [] []
      (by intro a ha; simp at ha)

/-! ## Projections of the batch result -/

theorem runBatch_errors (sources : List SourceRun) (limit : Nat) (ok : Str → Bool) :
    (runBatch sources limit ok).errors =
    ((batchArticles sources limit).filter (fun a => !ok a.url)).map
      (fun a => ErrEntry.mk a.source (some a.url)) := rfl

theorem runBatch_scraped (sources : List SourceRun) (limit : Nat) (ok : Str → Bool) :
    (runBatch sources limit ok).articlesScraped = (batchArticles sources limit).length := rfl

theorem runBatch_processed (sources : List SourceRun) (limit : Nat) (ok : Str → Bool) :
    (runBatch sources limit ok).processedCount =
    ((batchArticles sources limit).filter (fun a => ok a.url)).length := rfl

theorem runBatch_sources (sources : List SourceRun) (limit : Nat) (ok : Str → Bool) :
    (runBatch sources limit ok).sourcesAttempted = sources.length := rfl

theorem runBatch_rate (sources : List SourceRun) (limit : Nat) (ok : Str → Bool) :
    (runBatch sources limit ok).successRate =
    min 1
      (if 0 < (batchArticles sources limit).length then
        (((batchArticles sources limit).filter (fun a => ok a.url)).length : ℚ) /
          ((batchArticles sources limit).length : ℚ)
      else if 0 < sources.length then 0 else 1) := rfl

theorem count_eq_one_of_nodup_mem {u : Str} :
    ∀ {l : List Str}, l.Nodup → u ∈ l → l.count u = 1 := by
  intro l
  induction l with
  | nil => intro _ hm; simp at hm
  | cons a l' ih =>
    intro hnd hm
    rw [List.count_cons]
    rcases List.mem_cons.mp hm with h | h
    · subst h
      have hnotin : u ∉ l' := (List.nodup_cons.mp hnd).1
      rw [List.count_eq_zero.mpr hnotin]
      simp
    · have ha : a ≠ u := by
        intro hau
        subst hau
        exact (List.nodup_cons.mp hnd).1 h
      rw [ih (List.nodup_cons.mp hnd).2 h]
      simp [ha]

/-! ## Claim theorems -/

/-- C1: within one source's harvest no two emitted articles share a resolved
URL (the per-source `seenUrls` set guarantees the emitted URL list is
duplicate-free), and the seen-set is scoped to the source: when two sources
each emit the same URL, the batch keeps both copies (the URL occurs exactly
twice in the batch's article list). -/
theorem c1_dedup_scoped :
    (∀ (s : SourceRun) (limit : Nat), ((harvestSource s limit).map Art.url).Nodup) ∧
    (∀ (s1 s2 : SourceRun) (limit : Nat) (u : Str),
      u ∈ (harvestSource s1 limit).map Art.url →
      u ∈ (harvestSource s2 limit).map Art.url →
      ((batchArticles [s1, s2] limit).map Art.url).count u = 2) := by
  refine ⟨harvestSource_nodup, ?_⟩
  intro s1 s2 limit u h1 h2
  have e : (batchArticles [s1, s2] limit).map Art.url =
      (harvestSource s1 limit).map Art.url ++
        ((harvestSource s2 limit).map Art.url ++ []) := by
    unfold batchArticles
    simp
  rw [e, List.count_append, List.count_append,
    count_eq_one_of_nodup_mem (harvestSource_nodup s1 limit) h1,
    count_eq_one_of_nodup_mem (harvestSource_nodup s2 limit) h2]
  simp

theorem c1_dedup_scoped_witness :
    ((batchArticles [wSrcA, wSrcB] 5).map Art.url).count
      ("https://example.com/story1".toList) = 2 :=
  c1_dedup_scoped.2 wSrcA wSrcB 5 ("https://example.com/story1".toList)
    (by decide) (by decide)

/-- C2 (counterexample): a source whose listing fetch failed contributes zero
articles but also contributes *no* error entry to the batch result — the catch
inside `performScraping` swallows the failure and returns `[]`, so the
orchestrator's per-source catch never fires.  The claim's "exactly one error
entry naming that source" is false: the error list is empty. -/
theorem c2_counterexample :
    wFailSrc.listing = none ∧
    (runBatch [wFailSrc, wSrcA] 5 (fun _ => true)).errors = [] ∧
    (runBatch [wFailSrc, wSrcA] 5 (fun _ => true)).articlesScraped = 1 :=
  ⟨rfl, by decide, by decide⟩

/-- C2 (amended): a source whose listing-page fetch fails entirely contributes
zero articles to the batch and the failure does not abort the batch (all
counters, errors and processed articles equal those of the batch without the
failing source), but no error entry is recorded for it — the failure is only
logged. -/
theorem c2_listing_failure_amended :
    ∀ (s : SourceRun) (rest : List SourceRun) (limit : Nat) (ok : Str → Bool),
    s.listing = none →
    (runBatch (s :: rest) limit ok).articlesScraped =
      (runBatch rest limit ok).articlesScraped ∧
    (runBatch (s :: rest) limit ok).errors = (runBatch rest limit ok).errors ∧
    (runBatch (s :: rest) limit ok).processedCount =
      (runBatch rest limit ok).processedCount ∧
    (runBatch (s :: rest) limit ok).sourcesAttempted = rest.length + 1 := by
  intro s rest limit ok h
  have hs : harvestSource s limit = [] := by unfold harvestSource; rw [h]
  have hb : batchArticles (s :: rest) limit = batchArticles rest limit := by
    unfold batchArticles
    rw [List.map_cons, List.flatten_cons, hs, List.nil_append]
  refine ⟨?_, ?_, ?_, ?_⟩
  · rw [runBatch_scraped, runBatch_scraped, hb]
  · rw [runBatch_errors, runBatch_errors, hb]
  · rw [runBatch_processed, runBatch_processed, hb]
  · rw [runBatch_sources]; simp

theorem c2_listing_failure_amended_witness :
    (runBatch (wFailSrc :: [wSrcA]) 5 (fun _ => true)).articlesScraped =
      (runBatch [wSrcA] 5 (fun _ => true)).articlesScraped ∧
    (runBatch (wFailSrc :: [wSrcA]) 5 (fun _ => true)).errors =
      (runBatch [wSrcA] 5 (fun _ => true)).errors ∧
    (runBatch (wFailSrc :: [wSrcA]) 5 (fun _ => true)).processedCount =
      (runBatch [wSrcA] 5 (fun _ => true)).processedCount ∧
    (runBatch (wFailSrc :: [wSrcA]) 5 (fun _ => true)).sourcesAttempted = 2 :=
  c2_listing_failure_amended wFailSrc [wSrcA] 5 (fun _ => true) rfl

/-- C3 (counterexample): the normalizer's output can contain the literal
`<script` (when the input's `<script` fragment has no closing `>`, no
replacement pass touches it), and can contain a run of two consecutive
spaces (removing `Advertisement` between two spaces joins them after the
whitespace-collapsing pass already ran). -/
theorem c3_counterexample :
    isSubstr ("<script".toList) (cleanContentL ("<script".toList)) = true ∧
    noWsRun (cleanContentL ("a Advertisement b".toList)) = false := by
  constructor
  · decide
  · decide

/-- C3 (amended): for every input, the output of the Text Normalizer contains
no *complete* HTML structure — no `<` character in the output is ever followed
by a `>` character, hence no intact tag, `<script...>` block, `<style...>`
block or comment survives (an unpaired fragment such as a lone `<script` with
no `>` may remain); and the output has no run of two or more consecutive
whitespace characters provided the boilerplate-phrase passes removed nothing
(no case-insensitive `Advertisement` or `Share this story` occurrence is left
by the whitespace-collapsing stage). -/
theorem c3_normalizer_output_amended :
    ∀ l : Str,
    noLtGtB (cleanContentL l) = true ∧
    (findCi ("advertisement".toList) (stage6 l) = none →
      findCi ("share this story".toList) (stage6 l) = none →
      noWsRun (cleanContentL l) = true) := by
  intro l
  refine ⟨cleanContentL_noLtGt l, fun h7 h8 => ?_⟩
  unfold cleanContentL
  rw [phrase_passes_id h7 h8]
  exact trimL_noWsRun (stage6_noWsRun l)

theorem c3_normalizer_output_amended_witness :
    noWsRun (cleanContentL ("a <b> c".toList)) = true :=
  (c3_normalizer_output_amended ("a <b> c".toList)).2 (by decide) (by decide)

/-- C4 (counterexample): the Text Normalizer is not idempotent — removing
`Advertisement` from `a Advertisement b` leaves the double space `a  b`,
which a second run collapses to `a b`. -/
theorem c4_counterexample :
    cleanContentL (cleanContentL ("a Advertisement b".toList)) ≠
      cleanContentL ("a Advertisement b".toList) := by decide

/-- C4 (amended): the Text Normalizer is idempotent on every input whose
output contains no run of two or more whitespace characters and no residual
case-insensitive occurrence of the boilerplate phrases — exactly the outputs
the phrase-removal passes did not disturb. -/
theorem c4_idempotent_amended :
    ∀ l : Str,
    noWsRun (cleanContentL l) = true →
    findCi ("advertisement".toList) (cleanContentL l) = none →
    findCi ("share this story".toList) (cleanContentL l) = none →
    cleanContentL (cleanContentL l) = cleanContentL l := by
  intro l hws h7 h8
  exact cleanContentL_fix (cleanContentL_noLtGt l) (cleanContentL_no_nl l) hws h7 h8
    (by unfold cleanContentL; exact trimL_trimL _)

theorem c4_idempotent_amended_witness :
    cleanContentL (cleanContentL ("a <b> c".toList)) = cleanContentL ("a <b> c".toList) :=
  c4_idempotent_amended ("a <b> c".toList) (by decide) (by decide) (by decide)

/-- C5: `selectBest` returns the value of the highest-scoring valid candidate
across *all* selector strings of the spec combined (candidates in encounter
order: selectors in order, matches in document order, hidden nodes and
too-short values excluded); ties keep the first candidate found — the winner
is the *first* candidate attaining the maximum score, since a later candidate
replaces the best only on a strictly greater score. -/
theorem c5_select_best_argmax :
    ∀ (find : Str → List Elem) (cfg : SelCfg) (field : FieldKind),
    candList find cfg field ≠ [] →
    ∃ p, (candList find cfg field).find?
        (fun q => candScore field q.1 q.2 ==
          maxScore field (candList find cfg field)) = some p ∧
      selectBestCore find cfg field =
        (candValue field p.2, candScore field p.1 p.2, some p.2) ∧
      candScore field p.1 p.2 = maxScore field (candList find cfg field) ∧
      (∀ q ∈ candList find cfg field,
        candScore field q.1 q.2 ≤ candScore field p.1 p.2) ∧
      (field ≠ FieldKind.fullContent → selectBest find cfg field = candValue field p.2) := by
  intro find cfg field hne
  have hmax : -1 < maxScore field (candList find cfg field) := by
    rcases hl : candList find cfg field with _ | ⟨p, l'⟩
    · exact absurd hl hne
    · rw [maxScore_cons]
      have hpos := candScore_nonneg field p.1 p.2
      have h2 := le_max_left (candScore field p.1 p.2) (maxScore field l')
      omega
  obtain ⟨p, hfind, hfold, hsc⟩ :=
    foldPairs_high (candList find cfg field) [] (-1) none (le_refl _) hmax
  refine ⟨p, hfind, ?_, hsc, ?_, ?_⟩
  · rw [selectBestCore_eq]; exact hfold
  · intro q hq
    rw [hsc]
    exact le_maxScore_of_mem hq
  · intro hfc
    simp only [selectBest]
    rw [if_neg hfc, selectBestCore_eq, hfold]

theorem c5_select_best_argmax_witness :
    selectBestCore wFind wCfg FieldKind.title =
      (candValue FieldKind.title wElemB,
        candScore FieldKind.title ("p".toList) wElemB, some wElemB) := by
  obtain ⟨p, hfind, hfold, hsc, hmax, hfc⟩ :=
    c5_select_best_argmax wFind wCfg FieldKind.title (by decide)
  have hp : (candList wFind wCfg FieldKind.title).find?
      (fun q => candScore FieldKind.title q.1 q.2 ==
        maxScore FieldKind.title (candList wFind wCfg FieldKind.title)) =
      some (("p".toList), wElemB) := by decide
  rw [hp] at hfind
  have hpe : p = (("p".toList), wElemB) := (Option.some_inj.mp hfind).symm
  rw [hfold, hpe]

/-- C6 (counterexample): when the full-article fetch throws, the candidate
still becomes a finished article whose content is the cleaned, capped summary
— but the batch error list contains *no* entry tagged with the article's URL:
the failure is caught and logged inside the harvester, and batch error
entries arise only from summarize/store failures.  The claim's "the batch
error list contains an entry tagged with that article's URL" is false. -/
theorem c6_counterexample :
    wCand.full = none ∧
    harvestSource wSrcA 5 = [wArt] ∧
    wArt.content = (cleanContentL wCand.summary).take capLen ∧
    (runBatch [wSrcA] 5 (fun _ => true)).errors = [] :=
  ⟨rfl, by decide, by decide, by decide⟩

/-- C6 (amended): if the full-article fetch for a candidate fails, the
candidate still becomes a FinishedArticle whose content equals the cleaned,
length-capped initial summary (provided it passes the URL, title and
minimum-length gates), and no batch error entry records the fetch failure —
when every summarize/store call succeeds the batch error list is empty. -/
theorem c6_full_fetch_failure_amended :
    ∀ (name : Str) (c : Cand) (limit : Nat),
    c.full = none → c.url ≠ [] → strStarts c.url ("http".toList) = true →
    c.title ≠ [] → 1 ≤ limit →
    ¬((processContent true c.summary c.full).length < 20) →
    harvestSource ⟨name, some [c], true⟩ limit =
      [⟨c.url, c.title, (cleanContentL c.summary).take capLen, c.summary, name,
        c.imageUrl, c.publishedDate⟩] ∧
    (runBatch [⟨name, some [c], true⟩] limit (fun _ => true)).errors = [] := by
  intro name c limit hf hurl hstart htitle hlim hlen
  have hcontent : processContent true c.summary c.full =
      (cleanContentL c.summary).take capLen := by
    rw [hf]
    unfold processContent
    rw [if_pos rfl]
  constructor
  · show harvestGo name true limit [c] [] [] = _
    simp only [harvestGo]
    rw [if_neg (by simp; omega)]
    rw [if_neg ?hguard]
    case hguard =>
      intro hcon
      simp only [Bool.or_eq_true, Bool.not_eq_true', decide_eq_true_eq] at hcon
      rcases hcon with (h | h) | h
      · exact hurl h
      · rw [hstart] at h
        simp at h
      · simp at h
    rw [if_neg htitle]
    rw [if_neg hlen]
    rw [hcontent]
    rw [List.nil_append]
  · rw [runBatch_errors]
    simp

theorem c6_full_fetch_failure_amended_witness :
    harvestSource ⟨("BBC".toList), some [wCand], true⟩ 5 =
      [⟨wCand.url, wCand.title, (cleanContentL wCand.summary).take capLen,
        wCand.summary, ("BBC".toList), wCand.imageUrl, wCand.publishedDate⟩] ∧
    (runBatch [⟨("BBC".toList), some [wCand], true⟩] 5 (fun _ => true)).errors = [] :=
  c6_full_fetch_failure_amended ("BBC".toList) wCand 5 rfl (by decide) (by decide)
    (by decide) (by decide) (by decide)

/-- C7 (counterexample): the hyperlink penalty is keyed on the *selector
string* (line 149 tests `selector.toLowerCase().includes('link'/'title')`),
not on the field: an `a`-tagged element matched through a selector mentioning
neither word is penalized by 10 even when the field being extracted is the
title, so the claimed field-based formula disagrees with `scoreElement`. -/
theorem c7_counterexample :
    scoreElement c7Elem ("h2".toList) ≠
      claimScoreC7 c7Elem ("h2".toList) FieldKind.title := by decide

set_option maxHeartbeats 2000000 in
/-- C7 (amended): the score equals the cleaned-text length, plus 30 for
h1-h3, 15 for h4-h6, 5 for p, plus 20 if the selector text suggests
title/headline and 10 if it suggests content/body/article, minus 50 inside a
denylisted ancestor region, minus 10 if the node is a hyperlink and the
*selector string* mentions neither `link` nor `title` (case-insensitive),
floored at zero; non-tag nodes score zero. -/
theorem c7_score_formula_amended :
    ∀ (el : Elem) (sel : Str), scoreElement el sel = amendedScoreC7 el sel := by
  intro el sel
  by_cases h0 : el.isTag = false
  · simp only [scoreElement, amendedScoreC7, if_pos h0]
  · simp only [scoreElement, amendedScoreC7, if_neg h0]
    refine congrArg (fun z => max (0 : Int) z) ?_
    split_ifs <;> omega

/-- C8 (counterexample): the resolver keeps any resolved URL whose *string*
starts with `http`, which includes non-http(s) schemes such as `httpx:` —
`new URL('httpx://a', base)` serializes to `httpx://a`, which starts with
`http` and is returned even though its scheme is neither `http` nor `https`.
The claim's "returns the empty string when the resolved scheme is not
http/https" is false. -/
theorem c8_counterexample :
    resolveUrl parseModelAbs ("https://example.com/news".toList)
      (some ("httpx://a".toList)) = ("httpx://a".toList) ∧
    schemeOf ("httpx://a".toList) ≠ ("http".toList) ∧
    schemeOf ("httpx://a".toList) ≠ ("https".toList) := by
  refine ⟨by decide, by decide, by decide⟩

/-- C8 (amended): for every base and candidate (including empty and undefined
candidates) and every behavior of the platform URL parser, `resolveUrl` never
throws and returns either a string starting with `http` or the empty string;
it returns the empty string when the candidate is empty/undefined, when
resolution throws, or when the resolved string does not start with `http` —
a non-http(s) scheme whose name begins with `http` (such as `httpx:`) is
returned. -/
theorem c8_resolve_url_amended :
    ∀ (parse : Str → Str → Option Str) (base : Str) (rel : Option Str),
    (resolveUrl parse base rel = [] ∨
      strStarts (resolveUrl parse base rel) ("http".toList) = true) ∧
    (rel = none ∨ rel = some [] → resolveUrl parse base rel = []) ∧
    (∀ r, rel = some r → r ≠ [] → parse base r = none →
      resolveUrl parse base rel = []) ∧
    (∀ r res, rel = some r → parse base r = some res →
      strStarts res ("http".toList) = false → resolveUrl parse base rel = []) := by
  intro parse base rel
  refine ⟨?_, ?_, ?_, ?_⟩
  · cases rel with
    | none => exact Or.inl rfl
    | some r =>
      by_cases hr : r = []
      · simp only [resolveUrl]
        rw [if_pos hr]
        exact Or.inl rfl
      · simp only [resolveUrl]
        rw [if_neg hr]
        cases hp : parse base r with
        | none => exact Or.inl rfl
        | some res =>
          dsimp only
          by_cases hs : strStarts res ("http".toList) = true
          · rw [if_pos hs]; exact Or.inr hs
          · rw [if_neg hs]; exact Or.inl rfl
  · intro h
    rcases h with h | h
    · rw [h]; rfl
    · rw [h]; simp [resolveUrl]
  · intro r hr hne hp
    rw [hr]
    simp only [resolveUrl]
    rw [if_neg hne, hp]
  · intro r res hr hp hs
    rw [hr]
    simp only [resolveUrl]
    by_cases hne : r = []
    · rw [if_pos hne]
    · rw [if_neg hne, hp]
      dsimp only
      rw [if_neg (by rw [hs]; simp)]

theorem c8_resolve_url_amended_witness :
    resolveUrl parseModelAbs ("https://example.com".toList) (some []) = [] :=
  (c8_resolve_url_amended parseModelAbs ("https://example.com".toList)
    (some [])).2.1 (Or.inr rfl)

/-- C9: the batch success ratio equals stored/harvested when at least one
article was harvested; it is 0 when nothing was harvested but at least one
source was requested, 1 when no sources were requested, and it never
exceeds 1. -/
theorem c9_success_ratio :
    ∀ (sources : List SourceRun) (limit : Nat) (ok : Str → Bool),
    (0 < (runBatch sources limit ok).articlesScraped →
      (runBatch sources limit ok).successRate =
        ((runBatch sources limit ok).processedCount : ℚ) /
          ((runBatch sources limit ok).articlesScraped : ℚ)) ∧
    ((runBatch sources limit ok).articlesScraped = 0 → sources ≠ [] →
      (runBatch sources limit ok).successRate = 0) ∧
    (sources = [] → (runBatch sources limit ok).successRate = 1) ∧
    (runBatch sources limit ok).successRate ≤ 1 := by
  intro sources limit ok
  have hple : ((batchArticles sources limit).filter (fun a => ok a.url)).length ≤
      (batchArticles sources limit).length := List.length_filter_le _ _
  refine ⟨?_, ?_, ?_, ?_⟩
  · intro h
    rw [runBatch_scraped] at h
    rw [runBatch_rate, runBatch_processed, runBatch_scraped, if_pos h]
    refine min_eq_right ?_
    rw [div_le_one (by exact_mod_cast h)]
    exact_mod_cast hple
  · intro h hne
    rw [runBatch_scraped] at h
    rw [runBatch_rate, if_neg (by omega), if_pos (List.length_pos.mpr hne)]
    simp
  · intro h
    subst h
    rw [runBatch_rate]
    have hz : batchArticles ([] : List SourceRun) limit = [] := rfl
    rw [hz]
    simp
  · rw [runBatch_rate]
    exact min_le_left _ _

theorem c9_success_ratio_witness :
    (runBatch [wSrcA] 5 (fun _ => true)).successRate =
      ((runBatch [wSrcA] 5 (fun _ => true)).processedCount : ℚ) /
        ((runBatch [wSrcA] 5 (fun _ => true)).articlesScraped : ℚ) :=
  (c9_success_ratio [wSrcA] 5 (fun _ => true)).1 (by decide)

/-- C10: every article emitted by a harvest has content of length at least 20
and at most 8000: each path caps the content with `slice(0, 8000)`, and any
candidate whose content is shorter than 20 characters is dropped before
emission. -/
theorem c10_content_bounds :
    ∀ (s : SourceRun) (limit : Nat) (a : Art),
    a ∈ harvestSource s limit →
    20 ≤ a.content.length ∧ a.content.length ≤ 8000 :=
  fun s limit a ha => harvestSource_bounds s limit a ha

theorem c10_content_bounds_witness :
    20 ≤ wArt.content.length ∧ wArt.content.length ≤ 8000 :=
  c10_content_bounds wSrcA 5 wArt (by decide)
